import Mathlib

/-!
Verification of the download-execution and filesystem-confinement core of a
Telegram attachment-downloader bot (`main.go`).

The Go source is shallowly embedded:
pure helpers (`humanReadableSize`, filename selection, path checks) become
Lean functions; the stateful command handlers (`handleCd`, `handleLs`,
`downloadFile`, `downloadFileInternal`) become explicit state-passing
functions, with fallible OS operations (MkdirAll, Chdir, Download, Rename)
driven by explicit outcome parameters; the concurrent download tasks become
a small-step transition relation over the shared `Stats` counters.
Go `uint32` counters are modelled as `Nat` with explicit reduction
modulo `2 ^ 32`; Go `int64` sizes are modelled as `Int` with explicit
truncated division (`Int.tdiv`), matching Go's `/` on integers.
-/

/-! ### String and path utilities

Kernel-computable replacements for the Go standard-library string and path
helpers used by `main.go` (`strings.HasPrefix`, `filepath.IsAbs`,
`filepath.Join` / `filepath.Clean`, `os.Chdir` path resolution). -/

/-- `leadOf pre s` is true when the char list `pre` is a leading segment of
`s`; this is Go's `strings.HasPrefix` on the underlying characters. -/
def leadOf : List Char → List Char → Bool
  | [], _ => true
  | _, [] => false
  | a :: as, b :: bs => a == b && leadOf as bs

/-- Go `strings.HasPrefix s pre`. -/
def goHasPre (s pre : String) : Bool := leadOf pre.data s.data

/-- Go `filepath.IsAbs` on Unix: the path begins with a slash. -/
def isAbs (p : String) : Bool := goHasPre p "/"

/-- Split a char list on slashes, dropping empty components (as
`filepath.Clean` does for repeated separators). `acc` holds the current
component reversed. -/
def splitAux : List Char → List Char → List String
  | [], acc => if acc.isEmpty then [] else [String.mk acc.reverse]
  | c :: cs, acc =>
    if c == '/' then
      if acc.isEmpty then splitAux cs [] else String.mk acc.reverse :: splitAux cs []
    else splitAux cs (c :: acc)

/-- Components of a path. -/
def splitPath (s : String) : List String := splitAux s.data []

/-- Process `.` and `..` components the way the kernel (and
`filepath.Clean` on rooted paths) does: `.` disappears and `..` removes the
previous component, staying at the root when there is none. -/
def normComps (cs : List String) : List String :=
  cs.foldl (fun acc c =>
    if c == "." then acc
    else if c == ".." then acc.dropLast
    else acc ++ [c]) []

/-- Join components back with slashes. -/
def joinComps : List String → String
  | [] => ""
  | [c] => c
  | c :: cs => c ++ "/" ++ joinComps cs

/-- Clean an absolute path: the result of resolving `s` against the root
of the filesystem, as the kernel does for `os.Chdir` and as
`filepath.Clean` does for rooted paths. -/
def cleanAbs (s : String) : String := "/" ++ joinComps (normComps (splitPath s))

/-- The absolute path the process working directory becomes when
`os.Chdir wd` succeeds while the working directory is `current`:
absolute targets replace it, relative targets are resolved against it. -/
def chdirDest (current wd : String) : String :=
  cleanAbs (if isAbs wd then wd else current ++ "/" ++ wd)

/-- Go `filepath.Join dir name` for the non-empty operands used by the
program: concatenation with a separator, then `Clean`. -/
def goJoin (dir name : String) : String := cleanAbs (dir ++ "/" ++ name)

/-- `isUnder root p` is true when the (cleaned) path `p` is `root` itself or
a subpath of it, component-wise. -/
def compsLead : List String → List String → Bool
  | [], _ => true
  | _, [] => false
  | a :: as, b :: bs => a == b && compsLead as bs

/-- The confinement predicate of the spec: `p` is the root or below it. -/
def isUnder (root p : String) : Bool :=
  compsLead (normComps (splitPath root)) (normComps (splitPath p))

/-! ### Configuration and size formatting -/

/-- `Cfg` from `main.go`: immutable startup configuration. -/
structure Cfg where
  initialWorkingDir : String
  telegramToken : String
  whitelistedChatID : Int
deriving DecidableEq

/-- `humanReadableSize` from `main.go`. Go's `/` on `int64` is truncated
division, written `Int.tdiv` here; `fmt.Sprintf "%d X"` is decimal rendering
followed by the unit. -/
def humanReadableSize (size : Int) : String :=
  if size < 1024 then toString size ++ " B"
  else if size < 1024 * 1024 then toString (Int.tdiv size 1024) ++ " KB"
  else if size < 1024 * 1024 * 1024 then
    toString (Int.tdiv (Int.tdiv size 1024) 1024) ++ " MB"
  else toString (Int.tdiv (Int.tdiv (Int.tdiv size 1024) 1024) 1024) ++ " GB"

/-! ### The `/cd` handler

`handleCd` from `main.go`, as a state transformer over the process working
directory `current`.  The two fallible OS calls, `os.MkdirAll` and
`os.Chdir`, are driven by the explicit outcome parameters `mkdirOk` and
`chdirOk`; a failed call leaves the working directory untouched (only a
successful `os.Chdir` mutates the process working directory). -/

/-- Outcome of `handleCd`: the usage reply, the `errorOutside` error, the
two OS-error returns, and the successful `done!` reply. -/
inductive CdOutcome where
  | usage
  | outsideRoot
  | mkdirErr
  | chdirErr
  | ok
deriving DecidableEq

/-- Result of a `/cd` command: its outcome and the process working
directory afterwards. -/
structure CdResult where
  outcome : CdOutcome
  current : String
deriving DecidableEq

/-- `handleCd` from `main.go`: one argument expected; `-r` is replaced by
the initial working directory; an absolute path without the initial root as
a string prefix is rejected with `errorOutside`; then `os.MkdirAll` and
`os.Chdir` run in order. -/
def handleCd (cfg : Cfg) (current : String) (args : List String)
    (mkdirOk chdirOk : Bool) : CdResult :=
  match args with
  | [arg] =>
    let wd := if arg == "-r" then cfg.initialWorkingDir else arg
    if isAbs wd && !goHasPre wd cfg.initialWorkingDir then
      ⟨CdOutcome.outsideRoot, current⟩
    else if !mkdirOk then ⟨CdOutcome.mkdirErr, current⟩
    else if !chdirOk then ⟨CdOutcome.chdirErr, current⟩
    else ⟨CdOutcome.ok, chdirDest current wd⟩
  | _ => ⟨CdOutcome.usage, current⟩

/-! ### Download counters and the download worker

`Stats` from `main.go`.  The three `uint32` counters are `Nat` values,
always reduced modulo `2 ^ 32` exactly where the Go atomics wrap. -/

/-- `2 ^ 32`, the modulus of Go's `uint32` arithmetic. -/
def U32 : Nat := 4294967296

/-- `atomic.AddUint32 x 1`. -/
def incU32 (x : Nat) : Nat := (x + 1) % U32

/-- `atomic.AddUint32 x (2 ^ 32 - 1)`, i.e. the wrapping decrement the code
writes as adding the all-ones constant. -/
def decU32 (x : Nat) : Nat := (x + (U32 - 1)) % U32

/-- The counter fields of `Stats` from `main.go` (the `startTime` field is
wall-clock only and is not part of any claim). The field name `dowloadsOk`
keeps the source's spelling. -/
structure DlStats where
  dowloadsOk : Nat
  downloadsErr : Nat
  downloadsPending : Nat
deriving DecidableEq

/-- How one download attempt can end in `downloadFileInternal`: a failure of
`c.Bot().Download`, a failure of `os.Rename`, or success. -/
inductive DlOutcome where
  | downloadErr
  | renameErr
  | ok
deriving DecidableEq

/-- `downloadFileInternal` from `main.go`.  The filesystem is the list of
paths at which a file exists.  `Download` streams into the temp path (so the
temp file exists afterwards, complete or partial); `os.Rename` removes the
temp path and makes the final path appear; each failure return increments
the error counter and abandons the temp file. -/
def downloadFileInternal (st : DlStats) (fs : List String) (wd fname : String)
    (outcome : DlOutcome) : DlStats × List String :=
  let fpath := goJoin wd fname
  let tmp := fpath ++ ".tmp"
  match outcome with
  | DlOutcome.downloadErr =>
      ({ st with downloadsErr := incU32 st.downloadsErr }, tmp :: fs)
  | DlOutcome.renameErr =>
      ({ st with downloadsErr := incU32 st.downloadsErr }, tmp :: fs)
  | DlOutcome.ok =>
      ({ st with dowloadsOk := incU32 st.dowloadsOk },
       fpath :: (tmp :: fs).erase tmp)

/-! ### Concurrent download tasks as a transition system

Each call of `downloadFile` (one goroutine) performs, in program order,
three atomic actions on the shared counters:

* increment `DownloadsPending` — the first line of `downloadFile`;
* increment `DowloadsOk` or `DownloadsErr` — the settlement inside
  `downloadFileInternal`, according to that task's outcome;
* decrement `DownloadsPending` and, depending on the returned value, emit
  the "All downloads finished" or the periodic progress notification — the
  tail of `downloadFile`.

Across goroutines these atomic actions interleave arbitrarily, which the
step relation `Step` below captures: a system state holds the shared
counters, the phase of every task, and how many notifications of each kind
have been emitted. -/

/-- Where one download task stands between its three atomic actions. -/
inductive Phase where
  | idle
  | claimed
  | settled
  | done
deriving DecidableEq

/-- One download task: its phase and its (predetermined) outcome. -/
structure DlTask where
  phase : Phase
  outcome : DlOutcome
deriving DecidableEq

/-- Shared-counter state plus per-task phases and the notification log. -/
structure Sys where
  stats : DlStats
  tasks : List DlTask
  notesAllFinished : Nat
  notesProgress : Nat
deriving DecidableEq

/-- Replace the phase of the `i`-th task. -/
def setPhase : List DlTask → Nat → Phase → List DlTask
  | [], _, _ => []
  | t :: ts, 0, p => { t with phase := p } :: ts
  | t :: ts, n + 1, p => t :: setPhase ts n p

/-- First atomic action of `downloadFile`:
`atomic.AddUint32 DownloadsPending 1`. -/
def startUpd (s : Sys) (i : Nat) : Sys :=
  { s with
    stats := { s.stats with downloadsPending := incU32 s.stats.downloadsPending },
    tasks := setPhase s.tasks i Phase.claimed }

/-- The settlement increment of `downloadFileInternal` for outcome `o`. -/
def settleStats (st : DlStats) (o : DlOutcome) : DlStats :=
  match o with
  | DlOutcome.ok => { st with dowloadsOk := incU32 st.dowloadsOk }
  | DlOutcome.downloadErr => { st with downloadsErr := incU32 st.downloadsErr }
  | DlOutcome.renameErr => { st with downloadsErr := incU32 st.downloadsErr }

/-- Second atomic action: the `i`-th task's settlement. -/
def settleUpd (s : Sys) (i : Nat) : Sys :=
  match s.tasks.get? i with
  | some t =>
      { s with stats := settleStats s.stats t.outcome,
               tasks := setPhase s.tasks i Phase.settled }
  | none => s

/-- Third atomic action: `pending := atomic.AddUint32 DownloadsPending
(all ones)` followed by the notification decision of `downloadFile` on the
returned value. -/
def finishUpd (s : Sys) (i : Nat) : Sys :=
  let p := decU32 s.stats.downloadsPending
  let s1 := { s with stats := { s.stats with downloadsPending := p },
                     tasks := setPhase s.tasks i Phase.done }
  if p = 0 then { s1 with notesAllFinished := s1.notesAllFinished + 1 }
  else if p % 5 = 0 then { s1 with notesProgress := s1.notesProgress + 1 }
  else s1

/-- One atomic action of some download task. -/
inductive Step : Sys → Sys → Prop where
  | start (s : Sys) (i : Nat) (t : DlTask) (hg : s.tasks.get? i = some t)
      (hp : t.phase = Phase.idle) : Step s (startUpd s i)
  | settle (s : Sys) (i : Nat) (t : DlTask) (hg : s.tasks.get? i = some t)
      (hp : t.phase = Phase.claimed) : Step s (settleUpd s i)
  | finish (s : Sys) (i : Nat) (t : DlTask) (hg : s.tasks.get? i = some t)
      (hp : t.phase = Phase.settled) : Step s (finishUpd s i)

/-- Any interleaving of the tasks' atomic actions. -/
def Reachable : Sys → Sys → Prop := Relation.ReflTransGen Step

/-- Fresh system: zeroed counters, every task still to run. -/
def initSys (outs : List DlOutcome) : Sys :=
  { stats := ⟨0, 0, 0⟩,
    tasks := outs.map (fun o => ⟨Phase.idle, o⟩),
    notesAllFinished := 0,
    notesProgress := 0 }

/-- System in which every task has been submitted (its pending increment is
done) and none has settled: the state reached when all downloads run
concurrently. -/
def batchInit (outs : List DlOutcome) : Sys :=
  { stats := ⟨0, 0, outs.length⟩,
    tasks := outs.map (fun o => ⟨Phase.claimed, o⟩),
    notesAllFinished := 0,
    notesProgress := 0 }

/-- Number of tasks in phase `p`. -/
def countPhase (ts : List DlTask) (p : Phase) : Nat :=
  ts.countP (fun t => t.phase == p)

/-- Tasks currently between their pending-increment and pending-decrement:
this is what the `DownloadsPending` counter counts. -/
def inFlight (ts : List DlTask) : Nat :=
  ts.countP (fun t => t.phase == Phase.claimed || t.phase == Phase.settled)

/-- Tasks whose settlement increment has already happened. -/
def settledCount (ts : List DlTask) : Nat :=
  ts.countP (fun t => t.phase == Phase.settled || t.phase == Phase.done)

/-- Tasks that have been submitted (their pending-increment happened). -/
def submittedCount (ts : List DlTask) : Nat :=
  ts.countP (fun t => !(t.phase == Phase.idle))

/-- Settled-or-done tasks that succeeded: what `DowloadsOk` counts. -/
def okCount (ts : List DlTask) : Nat :=
  ts.countP (fun t =>
    (t.phase == Phase.settled || t.phase == Phase.done) &&
      t.outcome == DlOutcome.ok)

/-- Settled-or-done tasks that failed: what `DownloadsErr` counts. -/
def errCount (ts : List DlTask) : Nat :=
  ts.countP (fun t =>
    (t.phase == Phase.settled || t.phase == Phase.done) &&
      !(t.outcome == DlOutcome.ok))

/-! ### Counting lemmas for the transition system -/

theorem length_setPhase : ∀ (ts : List DlTask) (i : Nat) (p : Phase),
    (setPhase ts i p).length = ts.length := by
  intro ts
  induction ts with
  | nil => intro i p; rfl
  | cons a ts ih =>
    intro i p
    cases i with
    | zero => rfl
    | succ n => simp [setPhase, ih]

theorem map_outcome_setPhase : ∀ (ts : List DlTask) (i : Nat) (p : Phase),
    (setPhase ts i p).map (fun t => t.outcome) = ts.map (fun t => t.outcome) := by
  intro ts
  induction ts with
  | nil => intro i p; rfl
  | cons a ts ih =>
    intro i p
    cases i with
    | zero => rfl
    | succ n => simp [setPhase, ih]

theorem countP_setPhase (pred : DlTask → Bool) :
    ∀ (ts : List DlTask) (i : Nat) (t : DlTask) (p : Phase),
      ts.get? i = some t →
      (setPhase ts i p).countP pred + (if pred t then 1 else 0)
        = ts.countP pred + (if pred ⟨p, t.outcome⟩ then 1 else 0) := by
  intro ts
  induction ts with
  | nil => intro i t p h; cases h
  | cons a ts ih =>
    intro i t p h
    cases i with
    | zero =>
      simp only [List.get?] at h
      cases h
      simp only [setPhase, List.countP_cons]
      omega
    | succ n =>
      simp only [List.get?] at h
      simp only [setPhase, List.countP_cons]
      have := ih n t p h
      omega

theorem okCount_add_errCount : ∀ ts : List DlTask,
    okCount ts + errCount ts = settledCount ts := by
  intro ts
  induction ts with
  | nil => rfl
  | cons t ts ih =>
    rcases t with ⟨ph, o⟩
    simp only [okCount, errCount, settledCount, List.countP_cons] at *
    cases ph <;> cases o <;> simp <;> omega

theorem inFlight_split : ∀ ts : List DlTask,
    inFlight ts = countPhase ts Phase.claimed + countPhase ts Phase.settled := by
  intro ts
  induction ts with
  | nil => rfl
  | cons t ts ih =>
    rcases t with ⟨ph, o⟩
    simp only [inFlight, countPhase, List.countP_cons] at *
    cases ph <;> simp <;> omega

theorem settledCount_split : ∀ ts : List DlTask,
    settledCount ts = countPhase ts Phase.settled + countPhase ts Phase.done := by
  intro ts
  induction ts with
  | nil => rfl
  | cons t ts ih =>
    rcases t with ⟨ph, o⟩
    simp only [settledCount, countPhase, List.countP_cons] at *
    cases ph <;> simp <;> omega

theorem inFlight_add_done : ∀ ts : List DlTask,
    inFlight ts + countPhase ts Phase.done = submittedCount ts := by
  intro ts
  induction ts with
  | nil => rfl
  | cons t ts ih =>
    rcases t with ⟨ph, o⟩
    simp only [inFlight, countPhase, submittedCount, List.countP_cons] at *
    cases ph <;> simp <;> omega

theorem incU32_eq (x : Nat) (h : x + 1 < U32) : incU32 x = x + 1 := by
  simp only [incU32, U32] at *
  omega

theorem decU32_eq (x : Nat) (h1 : 1 ≤ x) (h2 : x < U32) : decU32 x = x - 1 := by
  simp only [decU32, U32] at *
  omega

theorem finishUpd_stats (s : Sys) (i : Nat) :
    (finishUpd s i).stats
      = { s.stats with downloadsPending := decU32 s.stats.downloadsPending } := by
  simp only [finishUpd]
  split
  · rfl
  · split <;> rfl

theorem finishUpd_tasks (s : Sys) (i : Nat) :
    (finishUpd s i).tasks = setPhase s.tasks i Phase.done := by
  simp only [finishUpd]
  split
  · rfl
  · split <;> rfl

theorem finishUpd_notesAllFinished (s : Sys) (i : Nat) :
    (finishUpd s i).notesAllFinished
      = if decU32 s.stats.downloadsPending = 0 then s.notesAllFinished + 1
        else s.notesAllFinished := by
  simp only [finishUpd]
  split
  · simp_all
  · split <;> simp_all

theorem finishUpd_notesProgress (s : Sys) (i : Nat) :
    (finishUpd s i).notesProgress
      = if decU32 s.stats.downloadsPending ≠ 0 ∧
            decU32 s.stats.downloadsPending % 5 = 0 then s.notesProgress + 1
        else s.notesProgress := by
  simp only [finishUpd]
  split
  · simp_all
  · split <;> simp_all

theorem beq_phase_eq (p q : Phase) : (p == q) = decide (p = q) := rfl

theorem beq_outcome_eq (a b : DlOutcome) : (a == b) = decide (a = b) := rfl

/-- The counter invariant tying the shared `Stats` fields to the true task
counts: each counter holds exactly the number it is meant to track, and the
outcomes of the tasks never change. -/
def SysInv (outs : List DlOutcome) (s : Sys) : Prop :=
  s.tasks.map (fun t => t.outcome) = outs ∧
  s.stats.downloadsPending = inFlight s.tasks ∧
  s.stats.dowloadsOk = okCount s.tasks ∧
  s.stats.downloadsErr = errCount s.tasks

theorem settleUpd_eq (s : Sys) (i : Nat) (t : DlTask)
    (hg : s.tasks.get? i = some t) :
    settleUpd s i = { s with stats := settleStats s.stats t.outcome,
                             tasks := setPhase s.tasks i Phase.settled } := by
  unfold settleUpd
  rw [hg]

theorem inv_step (outs : List DlOutcome) (s s2 : Sys) (hn : outs.length < U32)
    (hinv : SysInv outs s) (hstep : Step s s2) : SysInv outs s2 := by
  obtain ⟨hmap, hpend, hok, herr⟩ := hinv
  have hlen : s.tasks.length = outs.length := by
    simpa using congrArg List.length hmap
  cases hstep with
  | start i t hg hp =>
    rcases t with ⟨ph, o⟩
    cases hp
    have hIF := countP_setPhase
      (fun u => u.phase == Phase.claimed || u.phase == Phase.settled)
      s.tasks i ⟨Phase.idle, o⟩ Phase.claimed hg
    have hOK := countP_setPhase
      (fun u => (u.phase == Phase.settled || u.phase == Phase.done) &&
        (u.outcome == DlOutcome.ok))
      s.tasks i ⟨Phase.idle, o⟩ Phase.claimed hg
    have hERR := countP_setPhase
      (fun u => (u.phase == Phase.settled || u.phase == Phase.done) &&
        !(u.outcome == DlOutcome.ok))
      s.tasks i ⟨Phase.idle, o⟩ Phase.claimed hg
    simp +decide only [] at hIF hOK hERR
    simp at hIF hOK hERR
    have hbound : (setPhase s.tasks i Phase.claimed).countP
        (fun u => u.phase == Phase.claimed || u.phase == Phase.settled)
        ≤ s.tasks.length := by
      have := List.countP_le_length
        (p := fun u => u.phase == Phase.claimed || u.phase == Phase.settled)
        (l := setPhase s.tasks i Phase.claimed)
      simpa [length_setPhase] using this
    refine ⟨?_, ?_, ?_, ?_⟩
    · simpa [startUpd, map_outcome_setPhase] using hmap
    · simp only [startUpd, inFlight] at *
      rw [hpend, incU32_eq _ (by omega)]
      omega
    · simp only [startUpd, okCount] at *
      omega
    · simp only [startUpd, errCount] at *
      omega
  | settle i t hg hp =>
    rcases t with ⟨ph, o⟩
    cases hp
    rw [settleUpd_eq s i ⟨Phase.claimed, o⟩ hg]
    have hIF := countP_setPhase
      (fun u => u.phase == Phase.claimed || u.phase == Phase.settled)
      s.tasks i ⟨Phase.claimed, o⟩ Phase.settled hg
    have hOK := countP_setPhase
      (fun u => (u.phase == Phase.settled || u.phase == Phase.done) &&
        (u.outcome == DlOutcome.ok))
      s.tasks i ⟨Phase.claimed, o⟩ Phase.settled hg
    have hERR := countP_setPhase
      (fun u => (u.phase == Phase.settled || u.phase == Phase.done) &&
        !(u.outcome == DlOutcome.ok))
      s.tasks i ⟨Phase.claimed, o⟩ Phase.settled hg
    have hbOK : (setPhase s.tasks i Phase.settled).countP
        (fun u => (u.phase == Phase.settled || u.phase == Phase.done) &&
          (u.outcome == DlOutcome.ok)) ≤ s.tasks.length := by
      have := List.countP_le_length
        (p := fun u => (u.phase == Phase.settled || u.phase == Phase.done) &&
          (u.outcome == DlOutcome.ok))
        (l := setPhase s.tasks i Phase.settled)
      simpa [length_setPhase] using this
    have hbERR : (setPhase s.tasks i Phase.settled).countP
        (fun u => (u.phase == Phase.settled || u.phase == Phase.done) &&
          !(u.outcome == DlOutcome.ok)) ≤ s.tasks.length := by
      have := List.countP_le_length
        (p := fun u => (u.phase == Phase.settled || u.phase == Phase.done) &&
          !(u.outcome == DlOutcome.ok))
        (l := setPhase s.tasks i Phase.settled)
      simpa [length_setPhase] using this
    cases o <;>
      · simp at hIF hOK hERR
        refine ⟨?_, ?_, ?_, ?_⟩
        · simpa [map_outcome_setPhase] using hmap
        · simp only [settleStats, inFlight] at *
          omega
        · simp only [settleStats, okCount, incU32, U32] at *
          omega
        · simp only [settleStats, errCount, incU32, U32] at *
          omega
  | finish i t hg hp =>
    rcases t with ⟨ph, o⟩
    cases hp
    have hIF := countP_setPhase
      (fun u => u.phase == Phase.claimed || u.phase == Phase.settled)
      s.tasks i ⟨Phase.settled, o⟩ Phase.done hg
    have hOK := countP_setPhase
      (fun u => (u.phase == Phase.settled || u.phase == Phase.done) &&
        (u.outcome == DlOutcome.ok))
      s.tasks i ⟨Phase.settled, o⟩ Phase.done hg
    have hERR := countP_setPhase
      (fun u => (u.phase == Phase.settled || u.phase == Phase.done) &&
        !(u.outcome == DlOutcome.ok))
      s.tasks i ⟨Phase.settled, o⟩ Phase.done hg
    have hbIF : s.tasks.countP
        (fun u => u.phase == Phase.claimed || u.phase == Phase.settled)
        ≤ s.tasks.length := List.countP_le_length _
    cases o <;>
      · simp at hIF hOK hERR
        refine ⟨?_, ?_, ?_, ?_⟩
        · simpa [finishUpd_tasks, map_outcome_setPhase] using hmap
        · rw [finishUpd_stats, finishUpd_tasks]
          simp only [inFlight, decU32, U32] at *
          omega
        · rw [finishUpd_stats, finishUpd_tasks]
          simp only [okCount] at *
          omega
        · rw [finishUpd_stats, finishUpd_tasks]
          simp only [errCount] at *
          omega

theorem map_outcome_mkTasks (ph : Phase) : ∀ os : List DlOutcome,
    (os.map (fun o => (⟨ph, o⟩ : DlTask))).map (fun t => t.outcome) = os := by
  intro os
  induction os with
  | nil => rfl
  | cons o os ih => simp [ih]

theorem zero_counts_idle : ∀ os : List DlOutcome,
    inFlight (os.map (fun o => ⟨Phase.idle, o⟩)) = 0 ∧
    okCount (os.map (fun o => ⟨Phase.idle, o⟩)) = 0 ∧
    errCount (os.map (fun o => ⟨Phase.idle, o⟩)) = 0 := by
  intro os
  induction os with
  | nil => exact ⟨rfl, rfl, rfl⟩
  | cons o os ih =>
    simp only [inFlight, okCount, errCount, List.map_cons, List.countP_cons] at *
    simp

theorem inv_init (outs : List DlOutcome) : SysInv outs (initSys outs) := by
  obtain ⟨hif, hok, herr⟩ := zero_counts_idle outs
  exact ⟨by simpa [initSys] using map_outcome_mkTasks Phase.idle outs,
         by simpa [initSys] using hif.symm,
         by simpa [initSys] using hok.symm,
         by simpa [initSys] using herr.symm⟩

theorem inv_reachable (outs : List DlOutcome) (s s2 : Sys)
    (hn : outs.length < U32) (hinv : SysInv outs s) (hr : Reachable s s2) :
    SysInv outs s2 := by
  induction hr with
  | refl => exact hinv
  | tail _ hstep ih => exact inv_step outs _ _ hn ih hstep

/-! ### The batch invariant: notifications for concurrently running tasks

`NoteInv` holds along any run that begins with every task already
submitted (phase `claimed`) and none settled: no task is ever idle again,
and the "All downloads finished" notification has been emitted exactly once
if no task is in flight and never otherwise. -/

def NoteInv (outs : List DlOutcome) (s : Sys) : Prop :=
  SysInv outs s ∧
  countPhase s.tasks Phase.idle = 0 ∧
  s.notesAllFinished = (if inFlight s.tasks = 0 then 1 else 0)

theorem countPhase_idle_zero (ts : List DlTask)
    (h : countPhase ts Phase.idle = 0) (i : Nat) (t : DlTask)
    (hg : ts.get? i = some t) : ¬ t.phase = Phase.idle := by
  intro hidle
  have hmem : t ∈ ts := List.get?_mem hg
  have := List.countP_eq_zero.mp h t hmem
  simp [hidle] at this

set_option maxRecDepth 4000 in
theorem note_inv_step (outs : List DlOutcome) (s s2 : Sys)
    (hn : outs.length < U32) (hinv : NoteInv outs s) (hstep : Step s s2) :
    NoteInv outs s2 := by
  obtain ⟨hsys, hidle, hnote⟩ := hinv
  have hsys2 := inv_step outs s s2 hn hsys hstep
  obtain ⟨hmap, hpend, hok, herr⟩ := hsys
  have hlen : s.tasks.length = outs.length := by
    simpa using congrArg List.length hmap
  refine ⟨hsys2, ?_⟩
  cases hstep with
  | start i t hg hp => exact absurd hp (countPhase_idle_zero s.tasks hidle i t hg)
  | settle i t hg hp =>
    rcases t with ⟨ph, o⟩
    cases hp
    rw [settleUpd_eq s i ⟨Phase.claimed, o⟩ hg]
    have hID := countP_setPhase (fun u => u.phase == Phase.idle)
      s.tasks i ⟨Phase.claimed, o⟩ Phase.settled hg
    have hIF := countP_setPhase
      (fun u => u.phase == Phase.claimed || u.phase == Phase.settled)
      s.tasks i ⟨Phase.claimed, o⟩ Phase.settled hg
    simp at hID hIF
    constructor
    · simp only [countPhase] at *
      omega
    · simp only [inFlight] at *
      simp only [hIF]
      exact hnote
  | finish i t hg hp =>
    rcases t with ⟨ph, o⟩
    cases hp
    have hID := countP_setPhase (fun u => u.phase == Phase.idle)
      s.tasks i ⟨Phase.settled, o⟩ Phase.done hg
    have hIF := countP_setPhase
      (fun u => u.phase == Phase.claimed || u.phase == Phase.settled)
      s.tasks i ⟨Phase.settled, o⟩ Phase.done hg
    have hbIF : s.tasks.countP
        (fun u => u.phase == Phase.claimed || u.phase == Phase.settled)
        ≤ s.tasks.length := List.countP_le_length _
    simp at hID hIF
    constructor
    · rw [finishUpd_tasks]
      simp only [countPhase] at *
      omega
    · rw [finishUpd_tasks, finishUpd_notesAllFinished, hpend]
      simp only [inFlight] at hnote hIF hpend ⊢
      rw [hnote]
      simp only [decU32, U32] at *
      split_ifs <;> omega

theorem note_inv_reachable (outs : List DlOutcome) (s s2 : Sys)
    (hn : outs.length < U32) (hinv : NoteInv outs s) (hr : Reachable s s2) :
    NoteInv outs s2 := by
  induction hr with
  | refl => exact hinv
  | tail _ hstep ih => exact note_inv_step outs _ _ hn ih hstep

theorem claimed_counts : ∀ os : List DlOutcome,
    inFlight (os.map (fun o => ⟨Phase.claimed, o⟩)) = os.length ∧
    countPhase (os.map (fun o => ⟨Phase.claimed, o⟩)) Phase.idle = 0 ∧
    okCount (os.map (fun o => ⟨Phase.claimed, o⟩)) = 0 ∧
    errCount (os.map (fun o => ⟨Phase.claimed, o⟩)) = 0 := by
  intro os
  induction os with
  | nil => exact ⟨rfl, rfl, rfl, rfl⟩
  | cons o os ih =>
    simp only [inFlight, countPhase, okCount, errCount, List.map_cons,
      List.countP_cons] at *
    simp

theorem note_inv_batchInit (outs : List DlOutcome) (h0 : outs ≠ []) :
    NoteInv outs (batchInit outs) := by
  obtain ⟨hif, hid, hok, herr⟩ := claimed_counts outs
  refine ⟨⟨?_, ?_, ?_, ?_⟩, ?_, ?_⟩
  · simpa [batchInit] using map_outcome_mkTasks Phase.claimed outs
  · simpa [batchInit] using hif.symm
  · simpa [batchInit] using hok.symm
  · simpa [batchInit] using herr.symm
  · simpa [batchInit] using hid
  · simp only [batchInit, hif]
    rw [if_neg]
    intro hc
    exact h0 (List.eq_nil_of_length_eq_zero hc)

/-! ### The `/ls` handler

`handleLs` from `main.go`: it renders each directory entry with
`fmt.Sprintf "%c %-50s: %s\n"` and appends it to a growing buffer `msg`,
flushing (`c.Reply msg`) whenever appending the next entry would bring the
buffer to 400 characters or more, and always flushing the final buffer.
The function below returns the list of flushed messages. -/

/-- One entry of `ioutil.ReadDir`: name, directory flag, size in bytes. -/
structure FileEntry where
  name : String
  isDir : Bool
  size : Int
deriving DecidableEq

/-- `fmt.Sprintf "%-50s"`: left-justified, space-padded to width 50. -/
def padRight (s : String) (n : Nat) : String :=
  s ++ String.mk (List.replicate (n - s.length) ' ')

/-- One rendered line of the listing: type char, padded name, size. -/
def renderEntry (e : FileEntry) : String :=
  (if e.isDir then "d" else "-") ++ " " ++ padRight e.name 50 ++ ": " ++
    humanReadableSize e.size ++ "\n"

/-- The first buffer starts with this header line. -/
def lsHeader (wd : String) : String := "Files in " ++ wd ++ ":\n"

/-- The loop of `handleLs`: `msg` is the current buffer; a prepended
message is one `c.Reply` flush; the final buffer is always flushed. -/
def handleLsChunks (msg : String) : List FileEntry → List String
  | [] => [msg]
  | e :: rest =>
    let s := renderEntry e
    if 400 ≤ s.length + msg.length then msg :: handleLsChunks s rest
    else handleLsChunks (msg ++ s) rest

/-- `handleLs` from `main.go`, given the entries read from the working
directory `wd`: the list of messages sent, in order. -/
def handleLs (wd : String) (entries : List FileEntry) : List String :=
  handleLsChunks (lsHeader wd) entries

/-- Modelled from the spec's chunking sentence: `ChunkedFrom buf ps cs`
holds when, starting from the current buffer `buf` and the remaining
rendered entries `ps`, the list of flushed messages is `cs` — each entry is
appended to the growing buffer; when appending the next entry would bring
the buffer to or above 400 characters the buffer is flushed as one message
and a new buffer is started before the entry is appended; the final
(possibly partial) buffer is always flushed. -/
inductive ChunkedFrom : String → List String → List String → Prop where
  | last (buf : String) : ChunkedFrom buf [] [buf]
  | grow (buf p : String) (ps cs : List String) :
      buf.length + p.length < 400 → ChunkedFrom (buf ++ p) ps cs →
      ChunkedFrom buf (p :: ps) cs
  | flush (buf p : String) (ps cs : List String) :
      400 ≤ buf.length + p.length → ChunkedFrom p ps cs →
      ChunkedFrom buf (p :: ps) (buf :: cs)

/-- Concatenation of a list of strings. -/
def joinAll : List String → String
  | [] => ""
  | s :: ss => s ++ joinAll ss

/-! ### Filename selection for attachment events

`handleOnDocument`, `handleOnPhoto` and `handleOnVideo` from `main.go`:
the filename each handler passes to `downloadFile`. -/

/-- `handleOnDocument`: an empty `FileName` is replaced by the document's
`UniqueID`. -/
def documentFname (fileName uniqueID : String) : String :=
  if fileName = "" then uniqueID else fileName

/-- `handleOnPhoto`: photos carry no filename; the photo's `UniqueID` plus
a `.jpg` suffix is always used. -/
def photoFname (uniqueID : String) : String := uniqueID ++ ".jpg"

/-- `handleOnVideo`: the video's `UniqueID` plus a `.mp4` suffix is always
used (a non-`video/mp4` MIME type only draws a warning). -/
def videoFname (uniqueID : String) : String := uniqueID ++ ".mp4"

/-! ### Helper lemmas about strings and paths -/

theorem leadOf_self : ∀ l : List Char, leadOf l l = true := by
  intro l
  induction l with
  | nil => rfl
  | cons a l ih => simp [leadOf, ih]

theorem goHasPre_self (s : String) : goHasPre s s = true := leadOf_self s.data

theorem isAbs_cleanAbs (s : String) : isAbs (cleanAbs s) = true := by
  show leadOf "/".data (("/" : String) ++ joinComps (normComps (splitPath s))).data = true
  rw [String.data_append]
  simp [leadOf]

theorem append_tmp_ne (s : String) : s ++ ".tmp" ≠ s := by
  intro h
  have h2 := congrArg String.length h
  rw [String.length_append] at h2
  have h4 : ".tmp".length = 4 := rfl
  rw [h4] at h2
  omega

theorem handleCd_reset (cfg : Cfg) (current : String)
    (h : cleanAbs cfg.initialWorkingDir = cfg.initialWorkingDir) :
    handleCd cfg current ["-r"] true true
      = ⟨CdOutcome.ok, cfg.initialWorkingDir⟩ := by
  have habs : isAbs cfg.initialWorkingDir = true := by
    rw [← h]
    exact isAbs_cleanAbs _
  have hpre : goHasPre cfg.initialWorkingDir cfg.initialWorkingDir = true :=
    goHasPre_self _
  simp [handleCd, habs, hpre, chdirDest, h]

/-! ### Claim theorems -/

/-- C1: Root confinement. The claim states that for every absolute requested
path not having the configured root as a prefix the path change fails with
the `OutsideRoot` error (which the code does), and that for every relative
requested path the resulting working directory is always the initial root or
a subpath of it.  The second half is FALSE in the code: `handleCd` applies no
confinement check at all to relative paths, so with root `/data` and current
directory `/data` the request `..` succeeds and moves the working directory
to `/`, outside the root.  This theorem exhibits the escape (and, for
contrast, the absolute case working as claimed). -/
theorem handleCd_relative_escape :
    (handleCd ⟨"/data", "tok", 0⟩ "/data" ["/etc"] true true).outcome
      = CdOutcome.outsideRoot ∧
    (handleCd ⟨"/data", "tok", 0⟩ "/data" ["/etc"] true true).current
      = "/data" ∧
    (handleCd ⟨"/data", "tok", 0⟩ "/data" [".."] true true).outcome
      = CdOutcome.ok ∧
    (handleCd ⟨"/data", "tok", 0⟩ "/data" [".."] true true).current = "/" ∧
    isUnder "/data"
      (handleCd ⟨"/data", "tok", 0⟩ "/data" [".."] true true).current
      = false := by decide

/-- C2: Reset idempotence. `/cd -r` (with the filesystem operations
succeeding, which is how the code reaches the chdir) always sets the
working directory to the initial root regardless of the prior state, and
repeating it changes nothing.  The hypothesis says the configured root is a
clean absolute path, which `os.Getwd` guarantees at startup. -/
theorem handleCd_reset_idempotent (cfg : Cfg) (current : String)
    (h : cleanAbs cfg.initialWorkingDir = cfg.initialWorkingDir) :
    (handleCd cfg current ["-r"] true true).outcome = CdOutcome.ok ∧
    (handleCd cfg current ["-r"] true true).current = cfg.initialWorkingDir ∧
    handleCd cfg (handleCd cfg current ["-r"] true true).current
        ["-r"] true true
      = handleCd cfg current ["-r"] true true := by
  have h1 := handleCd_reset cfg current h
  refine ⟨by rw [h1], by rw [h1], ?_⟩
  simp only [h1]
  exact handleCd_reset cfg cfg.initialWorkingDir h

/-- C2 witness. -/
theorem handleCd_reset_idempotent_witness :
    cleanAbs "/data" = "/data" ∧
    ((handleCd ⟨"/data", "tok", 0⟩ "/x" ["-r"] true true).outcome
        = CdOutcome.ok ∧
      (handleCd ⟨"/data", "tok", 0⟩ "/x" ["-r"] true true).current = "/data" ∧
      handleCd ⟨"/data", "tok", 0⟩
          (handleCd ⟨"/data", "tok", 0⟩ "/x" ["-r"] true true).current
          ["-r"] true true
        = handleCd ⟨"/data", "tok", 0⟩ "/x" ["-r"] true true) :=
  ⟨by decide, handleCd_reset_idempotent ⟨"/data", "tok", 0⟩ "/x" (by decide)⟩

/-- C3: ChangeDirectory atomicity on failure. Whatever the arguments, if the
`os.Chdir` step fails then the working directory is unchanged (directory
creation may have succeeded) and the command does not report success: only a
successful `os.Chdir` mutates the working directory. -/
theorem handleCd_chdir_fail_preserves (cfg : Cfg) (current : String)
    (args : List String) (mkdirOk : Bool) :
    (handleCd cfg current args mkdirOk false).current = current ∧
    (handleCd cfg current args mkdirOk false).outcome ≠ CdOutcome.ok := by
  cases args with
  | nil => exact ⟨rfl, by simp [handleCd]⟩
  | cons a rest =>
    cases rest with
    | nil =>
      simp only [handleCd]
      split_ifs <;> first | exact ⟨rfl, by simp⟩ | simp_all
    | cons b rest2 => exact ⟨rfl, by simp [handleCd]⟩

/-- C7: Size formatting. For non-negative sizes, values below 1024 render
as `"<n> B"`; below 1024² as `"<n> KB"` by integer division (truncation);
below 1024³ as `"<n> MB"`; all larger values as `"<n> GB"`; with the
concrete values the spec lists. -/
theorem humanReadableSize_spec :
    (∀ size : Int, 0 ≤ size → size < 1024 →
      humanReadableSize size = toString size ++ " B") ∧
    (∀ size : Int, 1024 ≤ size → size < 1024 * 1024 →
      humanReadableSize size = toString (size / 1024) ++ " KB") ∧
    (∀ size : Int, 1024 * 1024 ≤ size → size < 1024 * 1024 * 1024 →
      humanReadableSize size = toString (size / 1024 / 1024) ++ " MB") ∧
    (∀ size : Int, 1024 * 1024 * 1024 ≤ size →
      humanReadableSize size
        = toString (size / 1024 / 1024 / 1024) ++ " GB") ∧
    humanReadableSize 0 = "0 B" ∧
    humanReadableSize 1024 = "1 KB" ∧
    humanReadableSize 1536 = "1 KB" ∧
    humanReadableSize 1048576 = "1 MB" ∧
    humanReadableSize 1073741824 = "1 GB" := by
  refine ⟨?_, ?_, ?_, ?_, by decide, by decide, by decide, by decide,
    by decide⟩
  · intro size h1 h2
    simp only [humanReadableSize]
    rw [if_pos h2]
  · intro size h1 h2
    simp only [humanReadableSize]
    rw [if_neg (by omega), if_pos h2,
      Int.tdiv_eq_ediv (by omega) (by omega)]
  · intro size h1 h2
    simp only [humanReadableSize]
    rw [if_neg (by omega), if_neg (by omega), if_pos h2,
      Int.tdiv_eq_ediv (Int.tdiv_nonneg (by omega) (by omega)) (by omega),
      Int.tdiv_eq_ediv (by omega) (by omega)]
  · intro size h1
    simp only [humanReadableSize]
    rw [if_neg (by omega), if_neg (by omega), if_neg (by omega),
      Int.tdiv_eq_ediv
        (Int.tdiv_nonneg (Int.tdiv_nonneg (by omega) (by omega)) (by omega))
        (by omega),
      Int.tdiv_eq_ediv (Int.tdiv_nonneg (by omega) (by omega)) (by omega),
      Int.tdiv_eq_ediv (by omega) (by omega)]

/-- C7 witness. -/
theorem humanReadableSize_spec_witness :
    (0 : Int) ≤ 500 ∧ (500 : Int) < 1024 ∧
    humanReadableSize 500 = toString (500 : Int) ++ " B" :=
  ⟨by decide, by decide, humanReadableSize_spec.1 500 (by decide) (by decide)⟩

/-- C10: Negative sizes. Every size below 1024 — in particular every
negative one — takes the first branch and renders as `"<n> B"` with the
negative number itself; the function is total on `Int` (hence on every
signed 64-bit value). -/
theorem humanReadableSize_negative :
    (∀ size : Int, size < 0 →
      humanReadableSize size = toString size ++ " B") ∧
    humanReadableSize (-1) = "-1 B" ∧
    humanReadableSize (-1024) = "-1024 B" := by
  refine ⟨?_, by decide, by decide⟩
  intro size h
  simp only [humanReadableSize]
  rw [if_pos (by omega)]

/-- C10 witness. -/
theorem humanReadableSize_negative_witness :
    (-5 : Int) < 0 ∧ humanReadableSize (-5) = toString (-5 : Int) ++ " B" :=
  ⟨by decide, humanReadableSize_negative.1 (-5) (by decide)⟩

/-- C9: Filename substitution. A document whose suggested filename is empty
gets the document's unique identifier as its filename (a non-empty
suggestion is kept); every photo gets its unique identifier with a `.jpg`
suffix; and distinct identifiers give distinct substituted names, so two
unrelated transfers with empty names do not collide. -/
theorem attachment_fname_spec :
    (∀ uid : String, documentFname "" uid = uid) ∧
    (∀ fn uid : String, fn ≠ "" → documentFname fn uid = fn) ∧
    (∀ uid : String, photoFname uid = uid ++ ".jpg") ∧
    (∀ uid1 uid2 : String, uid1 ≠ uid2 → documentFname "" uid1 ≠ documentFname "" uid2) ∧
    (∀ uid1 uid2 : String, uid1 ≠ uid2 → photoFname uid1 ≠ photoFname uid2) := by
  refine ⟨fun uid => rfl, ?_, fun uid => rfl, ?_, ?_⟩
  · intro fn uid h
    simp [documentFname, h]
  · intro uid1 uid2 h
    simpa [documentFname] using h
  · intro uid1 uid2 h hc
    apply h
    have : (uid1 ++ ".jpg").data = (uid2 ++ ".jpg").data :=
      congrArg String.data hc
    rw [String.data_append, String.data_append] at this
    have := List.append_cancel_right this
    exact String.ext this

/-- C9 witness. -/
theorem attachment_fname_spec_witness :
    ("doc.pdf" : String) ≠ "" ∧ documentFname "doc.pdf" "u1" = "doc.pdf" ∧
    documentFname "" "u1" = "u1" ∧ photoFname "u1" = "u1" ++ ".jpg" :=
  ⟨by decide, attachment_fname_spec.2.1 "doc.pdf" "u1" (by decide),
    attachment_fname_spec.1 "u1", attachment_fname_spec.2.2.1 "u1"⟩

theorem countP_lt_of_mem_not (l : List DlTask) (a : DlTask)
    (p : DlTask → Bool) (hm : a ∈ l) (hf : p a = false) :
    l.countP p < l.length := by
  induction l with
  | nil => cases hm
  | cons b l ih =>
    rw [List.countP_cons]
    rcases List.mem_cons.mp hm with h | h2
    · have hlb := List.countP_le_length (p := p) (l := l)
      subst h
      simp [hf]
      omega
    · have := ih h2
      have hone : (if p b then 1 else 0) ≤ 1 := by split <;> omega
      simp only [List.length_cons]
      omega

/-- C4: Download failure accounting. With no pre-existing file at the final
path, a failure at the streaming step or at the rename step each increments
the error counter by exactly one, leaves the success counter alone and
leaves no file at the final path (only the abandoned temp file); success
increments the success counter by exactly one, leaves the error counter
alone, and the resulting filesystem holds the final path — put there by the
single rename that removed the temp path. -/
theorem downloadFileInternal_accounting (st : DlStats) (fs : List String)
    (wd fname : String)
    (hok : st.dowloadsOk + 1 < U32) (herr : st.downloadsErr + 1 < U32)
    (hfp : goJoin wd fname ∉ fs) :
    (∀ o : DlOutcome, o ≠ DlOutcome.ok →
      (downloadFileInternal st fs wd fname o).1.downloadsErr
          = st.downloadsErr + 1 ∧
      (downloadFileInternal st fs wd fname o).1.dowloadsOk = st.dowloadsOk ∧
      (downloadFileInternal st fs wd fname o).1.downloadsPending
          = st.downloadsPending ∧
      goJoin wd fname ∉ (downloadFileInternal st fs wd fname o).2) ∧
    ((downloadFileInternal st fs wd fname DlOutcome.ok).1.dowloadsOk
        = st.dowloadsOk + 1 ∧
      (downloadFileInternal st fs wd fname DlOutcome.ok).1.downloadsErr
        = st.downloadsErr ∧
      (downloadFileInternal st fs wd fname DlOutcome.ok).1.downloadsPending
        = st.downloadsPending ∧
      (downloadFileInternal st fs wd fname DlOutcome.ok).2
        = goJoin wd fname :: fs ∧
      goJoin wd fname ∈ (downloadFileInternal st fs wd fname DlOutcome.ok).2) := by
  constructor
  · intro o ho
    have hmem : goJoin wd fname ∉ (goJoin wd fname ++ ".tmp") :: fs := by
      intro hmem
      rcases List.mem_cons.mp hmem with h1 | h2
      · exact append_tmp_ne (goJoin wd fname) h1.symm
      · exact hfp h2
    cases o with
    | ok => exact absurd rfl ho
    | downloadErr =>
      exact ⟨by simp [downloadFileInternal, incU32_eq _ herr], rfl, rfl, hmem⟩
    | renameErr =>
      exact ⟨by simp [downloadFileInternal, incU32_eq _ herr], rfl, rfl, hmem⟩
  · have hfs : (downloadFileInternal st fs wd fname DlOutcome.ok).2
        = goJoin wd fname :: fs := by
      simp [downloadFileInternal]
    exact ⟨by simp [downloadFileInternal, incU32_eq _ hok], rfl, rfl, hfs,
      by rw [hfs]; exact List.mem_cons_self _ _⟩

/-- C4 witness. -/
theorem downloadFileInternal_accounting_witness :
    (0 : Nat) + 1 < U32 ∧ goJoin "/data" "f" ∉ ([] : List String) ∧
    (downloadFileInternal ⟨0, 0, 0⟩ [] "/data" "f" DlOutcome.ok).1.dowloadsOk
      = 0 + 1 :=
  ⟨by decide, by simp,
    (downloadFileInternal_accounting ⟨0, 0, 0⟩ [] "/data" "f"
      (by decide) (by decide) (by simp)).2.1⟩

theorem chunkedFrom_handleLsChunks : ∀ (es : List FileEntry) (buf : String),
    ChunkedFrom buf (es.map renderEntry) (handleLsChunks buf es) := by
  intro es
  induction es with
  | nil => intro buf; exact ChunkedFrom.last buf
  | cons e rest ih =>
    intro buf
    simp only [handleLsChunks, List.map_cons]
    split
    · exact ChunkedFrom.flush _ _ _ _ (by omega) (ih _)
    · exact ChunkedFrom.grow _ _ _ _ (by omega) (ih _)

theorem joinAll_handleLsChunks : ∀ (es : List FileEntry) (buf : String),
    joinAll (handleLsChunks buf es) = buf ++ joinAll (es.map renderEntry) := by
  intro es
  induction es with
  | nil =>
    intro buf
    simp [handleLsChunks, joinAll, String.append_empty]
  | cons e rest ih =>
    intro buf
    simp only [handleLsChunks, List.map_cons, joinAll]
    split
    · show buf ++ joinAll (handleLsChunks (renderEntry e) rest) = _
      rw [ih]
    · rw [ih, String.append_assoc]

theorem handleLsChunks_ne_nil : ∀ (es : List FileEntry) (buf : String),
    handleLsChunks buf es ≠ [] := by
  intro es
  induction es with
  | nil => intro buf h; cases h
  | cons e rest ih =>
    intro buf
    simp only [handleLsChunks]
    split
    · simp
    · exact ih _

/-- C8: Directory-listing chunking. The messages `handleLs` sends satisfy
the spec's chunking discipline (`ChunkedFrom`: flush when appending the
next rendered entry would bring the buffer to 400 characters or more, new
buffer started before the entry is appended, final buffer always flushed);
no entry is lost or duplicated (the concatenation of all messages is the
header followed by all rendered entries); the empty listing still sends
exactly the header message; and at least one message is always sent. -/
theorem handleLs_chunking (wd : String) (es : List FileEntry) :
    ChunkedFrom (lsHeader wd) (es.map renderEntry) (handleLs wd es) ∧
    joinAll (handleLs wd es) = lsHeader wd ++ joinAll (es.map renderEntry) ∧
    handleLs wd [] = [lsHeader wd] ∧
    handleLs wd es ≠ [] :=
  ⟨chunkedFrom_handleLsChunks es (lsHeader wd),
    joinAll_handleLsChunks es (lsHeader wd), rfl,
    handleLsChunks_ne_nil es (lsHeader wd)⟩

/-- C5: Counter conservation. In every state reachable by any interleaving
of download tasks from a fresh system: the pending counter equals the exact
number of in-flight tasks (so it can never go negative), the success and
error counters sum to the number of settled tasks; at any quiescent point
(no task in flight) the pending counter is zero and the two counters sum to
the total number of submitted downloads; and each submission increments the
pending counter by exactly one while each settlement decrements it by
exactly one. -/
theorem stats_counter_conservation (outs : List DlOutcome) (s : Sys)
    (hn : outs.length < U32) (hr : Reachable (initSys outs) s) :
    s.stats.downloadsPending = inFlight s.tasks ∧
    s.stats.dowloadsOk + s.stats.downloadsErr = settledCount s.tasks ∧
    (inFlight s.tasks = 0 →
      s.stats.downloadsPending = 0 ∧
      s.stats.dowloadsOk + s.stats.downloadsErr = submittedCount s.tasks) ∧
    (∀ (i : Nat) (t : DlTask), s.tasks.get? i = some t →
      t.phase = Phase.idle →
      (startUpd s i).stats.downloadsPending
        = s.stats.downloadsPending + 1) ∧
    (∀ (i : Nat) (t : DlTask), s.tasks.get? i = some t →
      t.phase = Phase.settled →
      (finishUpd s i).stats.downloadsPending + 1
        = s.stats.downloadsPending) := by
  obtain ⟨hmap, hpend, hok, herr⟩ :=
    inv_reachable outs (initSys outs) s hn (inv_init outs) hr
  have hlen : s.tasks.length = outs.length := by
    simpa using congrArg List.length hmap
  refine ⟨hpend, ?_, ?_, ?_, ?_⟩
  · rw [hok, herr]
    exact okCount_add_errCount s.tasks
  · intro hq
    refine ⟨by rw [hpend, hq], ?_⟩
    rw [hok, herr, okCount_add_errCount]
    have h1 := inFlight_split s.tasks
    have h2 := settledCount_split s.tasks
    have h3 := inFlight_add_done s.tasks
    have h4 : countPhase s.tasks Phase.settled = 0 := by omega
    omega
  · intro i t hg hp
    rcases t with ⟨ph, o⟩
    cases hp
    have hmem : (⟨Phase.idle, o⟩ : DlTask) ∈ s.tasks := List.get?_mem hg
    have hcnt := countP_lt_of_mem_not s.tasks ⟨Phase.idle, o⟩
      (fun u => u.phase == Phase.claimed || u.phase == Phase.settled) hmem rfl
    simp only [inFlight] at hpend
    simp only [startUpd]
    rw [hpend, incU32_eq _ (by omega)]
  · intro i t hg hp
    rcases t with ⟨ph, o⟩
    cases hp
    have hmem : (⟨Phase.settled, o⟩ : DlTask) ∈ s.tasks := List.get?_mem hg
    have hpos : 0 < s.tasks.countP
        (fun u => u.phase == Phase.claimed || u.phase == Phase.settled) :=
      List.countP_pos_iff.mpr ⟨⟨Phase.settled, o⟩, hmem, rfl⟩
    have hle := List.countP_le_length
      (p := fun u => u.phase == Phase.claimed || u.phase == Phase.settled)
      (l := s.tasks)
    simp only [inFlight] at hpend
    rw [finishUpd_stats]
    show decU32 s.stats.downloadsPending + 1 = s.stats.downloadsPending
    rw [hpend, decU32_eq _ (by omega) (by omega)]
    omega

/-- C5 witness. -/
theorem stats_counter_conservation_witness :
    [DlOutcome.ok].length < U32 ∧
    (initSys [DlOutcome.ok]).stats.downloadsPending
      = inFlight (initSys [DlOutcome.ok]).tasks :=
  ⟨by decide,
    (stats_counter_conservation [DlOutcome.ok] (initSys [DlOutcome.ok])
      (by decide) Relation.ReflTransGen.refl).1⟩

/-- C6: Progress notifications. First conjunct: after a settling task
decrements the pending counter, an "All downloads finished" notification is
emitted exactly when the resulting pending value is zero, and a periodic
progress message exactly when the resulting value is a nonzero multiple of
five.  Second conjunct: starting from seven concurrently submitted
downloads whose transfers all succeed, in every interleaving in which all
seven settle, exactly one "All downloads finished" notification was
emitted, with `succeeded = 7`, `failed = 0` and `pending = 0`. -/
theorem downloadFile_notifications :
    (∀ (s : Sys) (i : Nat),
      (decU32 s.stats.downloadsPending = 0 →
        (finishUpd s i).notesAllFinished = s.notesAllFinished + 1 ∧
        (finishUpd s i).notesProgress = s.notesProgress) ∧
      (decU32 s.stats.downloadsPending ≠ 0 →
        decU32 s.stats.downloadsPending % 5 = 0 →
        (finishUpd s i).notesProgress = s.notesProgress + 1 ∧
        (finishUpd s i).notesAllFinished = s.notesAllFinished) ∧
      (decU32 s.stats.downloadsPending ≠ 0 →
        decU32 s.stats.downloadsPending % 5 ≠ 0 →
        (finishUpd s i).notesProgress = s.notesProgress ∧
        (finishUpd s i).notesAllFinished = s.notesAllFinished)) ∧
    (∀ s : Sys,
      Reachable (batchInit (List.replicate 7 DlOutcome.ok)) s →
      countPhase s.tasks Phase.done = 7 →
      s.notesAllFinished = 1 ∧ s.stats.dowloadsOk = 7 ∧
      s.stats.downloadsErr = 0 ∧ s.stats.downloadsPending = 0) := by
  constructor
  · intro s i
    refine ⟨?_, ?_, ?_⟩
    · intro h0
      rw [finishUpd_notesAllFinished, finishUpd_notesProgress,
        if_pos h0, if_neg (by simp [h0])]
      exact ⟨rfl, rfl⟩
    · intro h0 h5
      rw [finishUpd_notesAllFinished, finishUpd_notesProgress,
        if_neg h0, if_pos ⟨h0, h5⟩]
      exact ⟨rfl, rfl⟩
    · intro h0 h5
      rw [finishUpd_notesAllFinished, finishUpd_notesProgress,
        if_neg h0, if_neg (fun hc => h5 hc.2)]
      exact ⟨rfl, rfl⟩
  · intro s hr hdone
    obtain ⟨⟨hmap, hpend, hok, herr⟩, hid, hnote⟩ :=
      note_inv_reachable (List.replicate 7 DlOutcome.ok) _ s (by decide)
        (note_inv_batchInit _ (by decide)) hr
    have hlen : s.tasks.length = 7 := by
      simpa using congrArg List.length hmap
    have halldone : ∀ t ∈ s.tasks, t.phase = Phase.done := by
      intro t hm
      have hcount : s.tasks.countP (fun u => u.phase == Phase.done)
          = s.tasks.length := by
        simp only [countPhase] at hdone
        omega
      have := List.countP_eq_length.mp hcount t hm
      simpa using this
    have houtok : ∀ t ∈ s.tasks, t.outcome = DlOutcome.ok := by
      intro t hm
      have hmem2 : t.outcome ∈ List.replicate 7 DlOutcome.ok := by
        rw [← hmap]
        exact List.mem_map_of_mem _ hm
      exact List.eq_of_mem_replicate hmem2
    have hif0 : inFlight s.tasks = 0 := by
      apply List.countP_eq_zero.mpr
      intro t hm
      rw [halldone t hm]
      simp
    refine ⟨?_, ?_, ?_, ?_⟩
    · rw [hnote, if_pos hif0]
    · rw [hok]
      have : s.tasks.countP
          (fun u => (u.phase == Phase.settled || u.phase == Phase.done) &&
            (u.outcome == DlOutcome.ok)) = s.tasks.length := by
        apply List.countP_eq_length.mpr
        intro t hm
        rw [halldone t hm, houtok t hm]
        simp
      show s.tasks.countP _ = 7
      rw [this, hlen]
    · rw [herr]
      apply List.countP_eq_zero.mpr
      intro t hm
      rw [halldone t hm, houtok t hm]
      simp
    · rw [hpend, hif0]

/-- Concrete run for the C6 witness: all seven tasks settle, then all
seven finish, in index order. -/
def noteW0 : Sys := batchInit (List.replicate 7 DlOutcome.ok)

def noteW1 : Sys := settleUpd noteW0 0

def noteW2 : Sys := settleUpd noteW1 1

def noteW3 : Sys := settleUpd noteW2 2

def noteW4 : Sys := settleUpd noteW3 3

def noteW5 : Sys := settleUpd noteW4 4

def noteW6 : Sys := settleUpd noteW5 5

def noteW7 : Sys := settleUpd noteW6 6

def noteW8 : Sys := finishUpd noteW7 0

def noteW9 : Sys := finishUpd noteW8 1

def noteW10 : Sys := finishUpd noteW9 2

def noteW11 : Sys := finishUpd noteW10 3

def noteW12 : Sys := finishUpd noteW11 4

def noteW13 : Sys := finishUpd noteW12 5

def noteW14 : Sys := finishUpd noteW13 6

theorem noteW_reach : Reachable noteW0 noteW14 := by
  have h1 : Step noteW0 noteW1 :=
    Step.settle noteW0 0 ⟨Phase.claimed, DlOutcome.ok⟩ (by decide) rfl
  have h2 : Step noteW1 noteW2 :=
    Step.settle noteW1 1 ⟨Phase.claimed, DlOutcome.ok⟩ (by decide) rfl
  have h3 : Step noteW2 noteW3 :=
    Step.settle noteW2 2 ⟨Phase.claimed, DlOutcome.ok⟩ (by decide) rfl
  have h4 : Step noteW3 noteW4 :=
    Step.settle noteW3 3 ⟨Phase.claimed, DlOutcome.ok⟩ (by decide) rfl
  have h5 : Step noteW4 noteW5 :=
    Step.settle noteW4 4 ⟨Phase.claimed, DlOutcome.ok⟩ (by decide) rfl
  have h6 : Step noteW5 noteW6 :=
    Step.settle noteW5 5 ⟨Phase.claimed, DlOutcome.ok⟩ (by decide) rfl
  have h7 : Step noteW6 noteW7 :=
    Step.settle noteW6 6 ⟨Phase.claimed, DlOutcome.ok⟩ (by decide) rfl
  have h8 : Step noteW7 noteW8 :=
    Step.finish noteW7 0 ⟨Phase.settled, DlOutcome.ok⟩ (by decide) rfl
  have h9 : Step noteW8 noteW9 :=
    Step.finish noteW8 1 ⟨Phase.settled, DlOutcome.ok⟩ (by decide) rfl
  have h10 : Step noteW9 noteW10 :=
    Step.finish noteW9 2 ⟨Phase.settled, DlOutcome.ok⟩ (by decide) rfl
  have h11 : Step noteW10 noteW11 :=
    Step.finish noteW10 3 ⟨Phase.settled, DlOutcome.ok⟩ (by decide) rfl
  have h12 : Step noteW11 noteW12 :=
    Step.finish noteW11 4 ⟨Phase.settled, DlOutcome.ok⟩ (by decide) rfl
  have h13 : Step noteW12 noteW13 :=
    Step.finish noteW12 5 ⟨Phase.settled, DlOutcome.ok⟩ (by decide) rfl
  have h14 : Step noteW13 noteW14 :=
    Step.finish noteW13 6 ⟨Phase.settled, DlOutcome.ok⟩ (by decide) rfl
  exact ((((((((((((((Relation.ReflTransGen.refl.tail h1).tail h2).tail h3).tail h4).tail h5).tail h6).tail h7).tail h8).tail h9).tail h10).tail h11).tail h12).tail h13).tail h14)

/-- C6 witness. -/
theorem downloadFile_notifications_witness :
    Reachable (batchInit (List.replicate 7 DlOutcome.ok)) noteW14 ∧
    countPhase noteW14.tasks Phase.done = 7 ∧
    (noteW14.notesAllFinished = 1 ∧ noteW14.stats.dowloadsOk = 7 ∧
      noteW14.stats.downloadsErr = 0 ∧ noteW14.stats.downloadsPending = 0) :=
  ⟨noteW_reach, by decide,
    downloadFile_notifications.2 noteW14 noteW_reach (by decide)⟩

example : humanReadableSize 0 = "0 B" := by decide
example : humanReadableSize 1536 = "1 KB" := by decide
example : humanReadableSize (-5) = "-5 B" := by decide
example : cleanAbs "/data/.." = "/" := by decide
example : splitPath "/data/sub" = ["data", "sub"] := by decide
example : chdirDest "/data" ".." = "/" := by decide
example : isUnder "/data" "/" = false := by decide
example : isUnder "/data" "/data/x" = true := by decide
